import Mathlib

/-!
Verification development for the FORMATUPDATE study-notes pipeline.

The Python source (`src/utils.py`, `src/streamlit_app.py`) is shallowly
embedded below:

* JSON values returned by `json.loads` are modelled by `JVal`; JSON object
  contents (Python dicts produced by the JSON decoder) are ordered
  association lists with Python-dict update semantics (`dGet` / `dSet`:
  lookup of the first matching key, in-place update of an existing key,
  append of a new key).  Numeric literals are modelled as integers.
* The response-normalization code of `run_analysis_and_summarize`
  (utils.py lines 218-241) becomes pure functions `to_snake_case`,
  `normalize_keys`, `backfill`, `extract_clean_json`, `analyze_response`.
* The render preprocessor `process_data_for_template` / `process_item`
  (utils.py lines 251-306) mutates freshly copied dicts, so it is embedded
  against an explicit heap (`Heap`, `PVal`, `PObj`): Python mutable objects
  live at addresses, `.copy()` allocates, item assignment writes.
-/

/-- JSON values as produced by `json.loads`, with Python-dict objects kept as
ordered association lists.  JSON numeric literals are modelled as integers
(the pipeline only manipulates integral `time` values). -/
inductive JVal where
  | str (s : String)
  | num (n : Int)
  | bool (b : Bool)
  | null
  | arr (xs : List JVal)
  | obj (kvs : List (String × JVal))
deriving Repr

abbrev JDict := List (String × JVal)

/-- Lookup in a Python dict modelled as an ordered association list:
the first binding of the key wins (dicts never hold duplicate keys). -/
def dGet {α : Type} : List (String × α) → String → Option α
  | [], _ => none
  | (k', v) :: rest, k => if k' = k then some v else dGet rest k

/-- Python dict assignment `d[k] = v`: update the first binding of `k` in
place (keeping its position), or append a new binding at the end. -/
def dSet {α : Type} : List (String × α) → String → α → List (String × α)
  | [], k, v => [(k, v)]
  | (k', v') :: rest, k, v =>
      if k' = k then (k', v) :: rest else (k', v') :: dSet rest k v

/-- The fixed recognized-section enumeration `EXPECTED_KEYS` of utils.py. -/
def EXPECTED_KEYS : List String :=
  [ "main_subject", "topic_breakdown", "key_vocabulary",
    "formulas_and_principles", "teacher_insights",
    "exam_focus_points", "common_mistakes_explained",
    "key_points", "short_tricks", "must_remembers" ]

/-- Python truthiness of a JSON value: empty string, zero, `False`, `None`,
empty list and empty object are falsy. -/
def truthy : JVal → Bool
  | .str s => s != ""
  | .num n => n != 0
  | .bool b => b
  | .null => false
  | .arr xs => !xs.isEmpty
  | .obj kvs => !kvs.isEmpty

/-- The test `isinstance(v, list)` on a JSON value. -/
def isList : JVal → Bool
  | .arr _ => true
  | _ => false

/-- The zero value inserted by the backfill: `""` for `main_subject`,
`[]` for every other recognized key. -/
def zeroVal (k : String) : JVal :=
  if k = "main_subject" then .str "" else .arr []

/-- One iteration of the backfill loop of `run_analysis_and_summarize`
(utils.py lines 230-234) for a single expected key. -/
def backfillKey (d : JDict) (k : String) : JDict :=
  match dGet d k with
  | none => dSet d k (zeroVal k)
  | some v =>
      if k ≠ "main_subject" ∧ isList v = false then
        dSet d k (if truthy v then .arr [v] else .arr [])
      else d

/-- The schema-backfill step: the `for key in EXPECTED_KEYS` loop of
`run_analysis_and_summarize` (utils.py lines 230-234). -/
def backfill (d : JDict) : JDict :=
  EXPECTED_KEYS.foldl backfillKey d

/-- ASCII test used by the regex character class `[A-Z]` (code points 65-90). -/
def isUpperAscii (c : Char) : Bool := 65 ≤ c.toNat && c.toNat ≤ 90

/-- ASCII test used by the regex character class `[a-z]` (code points 97-122). -/
def isLowerAscii (c : Char) : Bool := 97 ≤ c.toNat && c.toNat ≤ 122

/-- ASCII test used by the regex character class `[0-9]` (code points 48-57). -/
def isDigitAscii (c : Char) : Bool := 48 ≤ c.toNat && c.toNat ≤ 57

/-- ASCII lowercasing, the effect of `str.lower()` on the ASCII keys this
code handles. -/
def asciiLower (c : Char) : Char :=
  if isUpperAscii c then Char.ofNat (c.toNat + 32) else c

/-- Scanner for `re.sub('(.)([A-Z][a-z]+)', r'\1_\2', s)` (first rule of
`to_snake_case`, utils.py line 225), written as a left-to-right state
machine.  State `0` scans normally; after inserting a boundary the matched
uppercase letter is passed through in state `1` and its greedy lowercase
run in state `2` (scanning resumes at the first character past the match,
exactly as `re.sub` does with non-overlapping matches).  `.` matches any
character except a newline. -/
def sub1Go (st : Nat) : List Char → List Char
  | [] => []
  | c :: cs =>
    if st == 1 then c :: sub1Go 2 cs
    else if st == 2 && isLowerAscii c then c :: sub1Go 2 cs
    else
      match cs with
      | u :: rest =>
        if (c != '\n') && isUpperAscii u &&
            (match rest with | l :: _ => isLowerAscii l | [] => false) then
          c :: '_' :: sub1Go 1 cs
        else
          c :: sub1Go 0 cs
      | [] => [c]

/-- Scanner for `re.sub('([a-z0-9])([A-Z])', r'\1_\2', s1)` (second rule of
`to_snake_case`, utils.py line 226): insert a boundary between a
lowercase-or-digit character and an immediately following uppercase letter,
resuming after each non-overlapping match. -/
def sub2 : List Char → List Char
  | [] => []
  | [c] => [c]
  | c :: u :: rest =>
    if (isLowerAscii c || isDigitAscii c) && isUpperAscii u then
      c :: '_' :: u :: sub2 rest
    else
      c :: sub2 (u :: rest)

/-- The key canonicalization `to_snake_case` of utils.py lines 224-226:
first rule, second rule, then lowercase the result. -/
def to_snake_case (s : String) : String :=
  String.mk ((sub2 (sub1Go 0 s.data)).map asciiLower)

/-- The key-canonicalization comprehension
`{to_snake_case(k): v for k, v in json_data.items()}` of utils.py line 229
(later occurrences of a colliding canonical key overwrite the value, as in
a Python dict built left to right). -/
def normalize_keys (d : JDict) : JDict :=
  d.foldl (fun acc p => dSet acc (to_snake_case p.1) p.2) []

/-- The full object-normalization of utils.py lines 229-234:
canonicalize keys, then backfill the recognized schema. -/
def normalize_json (d : JDict) : JDict :=
  backfill (normalize_keys d)

/-- Matches the regex character class `\s` on the ASCII range (the keys and
fences handled here are ASCII). -/
def isWsRegex (c : Char) : Bool :=
  c == ' ' || c == '\t' || c == '\n' || c == '\r' || c == '\x0b' || c == '\x0c'

/-- Holds when the pattern is an initial run of the second list. -/
def leadsWith : List Char → List Char → Bool
  | [], _ => true
  | _ :: _, [] => false
  | p :: ps, c :: cs => p == c && leadsWith ps cs

/-- Scanner for `re.sub(r'```json\s*|\s*```', '', response_text)`
(utils.py line 102).  At each position the first alternative
(` ```json ` plus a greedy whitespace run) is tried, then the second
(a whitespace run immediately followed by ` ``` `); a match is deleted and
scanning resumes after it, otherwise one character is kept.  The fuel is
at least the list length, and every recursive call consumes at least one
character. -/
def stripFencesGo : Nat → List Char → List Char
  | 0, cs => cs
  | fuel + 1, cs =>
    match cs with
    | [] => []
    | c :: rest =>
      if leadsWith ("```json".data) cs then
        stripFencesGo fuel ((cs.drop 7).dropWhile isWsRegex)
      else
        let tl := cs.dropWhile isWsRegex
        if leadsWith ("```".data) tl then
          stripFencesGo fuel (tl.drop 3)
        else
          c :: stripFencesGo fuel rest

/-- The markdown-fence cleanup of `extract_clean_json` (utils.py line 102). -/
def stripFences (s : String) : String :=
  String.mk (stripFencesGo s.data.length s.data)

/-- The greedy span of `re.search(r'\{.*\}', cleaned, re.DOTALL)`
(utils.py line 103): from the first opening brace to the last closing brace
after it, newlines included. -/
def greedyBraceSpan (cs : List Char) : Option (List Char) :=
  match cs.dropWhile (fun c => c != '\x7b') with
  | [] => none
  | _ :: rest =>
    let r := rest.reverse.dropWhile (fun c => c != '\x7d')
    if r.isEmpty then none
    else some ('\x7b' :: r.reverse)

/-- JSON inter-token whitespace as accepted by `json.loads`. -/
def skipWsJson (cs : List Char) : List Char :=
  cs.dropWhile (fun c => c == ' ' || c == '\t' || c == '\n' || c == '\r')

/-- Value of a hexadecimal digit, computed on code points (48-57 digits,
97-102 lowercase, 65-70 uppercase). -/
def hexVal (c : Char) : Option Nat :=
  let n := c.toNat
  if 48 ≤ n ∧ n ≤ 57 then some (n - 48)
  else if 97 ≤ n ∧ n ≤ 102 then some (n - 87)
  else if 65 ≤ n ∧ n ≤ 70 then some (n - 55)
  else none

/-- Single-character JSON string escapes. -/
def escChar : Char → Option Char
  | '"' => some '"'
  | '\\' => some '\\'
  | '/' => some '/'
  | 'b' => some '\x08'
  | 'f' => some '\x0c'
  | 'n' => some '\n'
  | 'r' => some '\r'
  | 't' => some '\t'
  | _ => none

/-- Body of a JSON string literal (after the opening quote): returns the
decoded characters and the remainder after the closing quote. -/
def parseStringBody : Nat → List Char → Option (List Char × List Char)
  | 0, _ => none
  | fuel + 1, cs =>
    match cs with
    | [] => none
    | c :: rest =>
      if c == '"' then some ([], rest)
      else if c == '\\' then
        match rest with
        | [] => none
        | e :: rest2 =>
          if e == 'u' then
            match rest2 with
            | h1 :: h2 :: h3 :: h4 :: rest3 =>
              match hexVal h1, hexVal h2, hexVal h3, hexVal h4 with
              | some a, some b, some c2, some d =>
                (parseStringBody fuel rest3).map
                  (fun p => (Char.ofNat (((a * 16 + b) * 16 + c2) * 16 + d) :: p.1, p.2))
              | _, _, _, _ => none
            | _ => none
          else
            match escChar e with
            | some ec => (parseStringBody fuel rest2).map (fun p => (ec :: p.1, p.2))
            | none => none
      else (parseStringBody fuel rest).map (fun p => (c :: p.1, p.2))

/-- Numeric value of a digit run. -/
def digitsVal (cs : List Char) : Nat :=
  cs.foldl (fun acc c => acc * 10 + (c.toNat - '0'.toNat)) 0

/-- JSON integer literal: optional minus, then `0` or a digit run without a
leading zero. -/
def parseIntLit (cs : List Char) : Option (Int × List Char) :=
  let p : Bool × List Char := match cs with
    | '-' :: r => (true, r)
    | _ => (false, cs)
  match p.2 with
  | [] => none
  | c :: rest =>
    if c == '0' then some (0, rest)
    else if isDigitAscii c then
      let ds := (c :: rest).takeWhile isDigitAscii
      let r := (c :: rest).dropWhile isDigitAscii
      let v : Int := Int.ofNat (digitsVal ds)
      some (if p.1 then -v else v, r)
    else none

mutual

/-- Fuel-indexed JSON value parser modelling `json.loads` on the JSON core
(objects, arrays, strings with escapes, integer numerals, literals).
Fractional or exponent numerals are not modelled and are rejected. -/
def parseVal : Nat → List Char → Option (JVal × List Char)
  | 0, _ => none
  | fuel + 1, cs0 =>
    let cs := skipWsJson cs0
    match cs with
    | [] => none
    | c :: rest =>
      if c == '\x7b' then
        match skipWsJson rest with
        | '\x7d' :: r2 => some (.obj [], r2)
        | cs1 => parseObjItems fuel [] cs1
      else if c == '[' then
        match skipWsJson rest with
        | ']' :: r2 => some (.arr [], r2)
        | cs1 => parseArrItems fuel [] cs1
      else if c == '"' then
        (parseStringBody cs.length rest).map (fun p => (.str (String.mk p.1), p.2))
      else if leadsWith ("true".data) cs then some (.bool true, cs.drop 4)
      else if leadsWith ("false".data) cs then some (.bool false, cs.drop 5)
      else if leadsWith ("null".data) cs then some (.null, cs.drop 4)
      else
        match parseIntLit cs with
        | some (v, r) =>
          match r with
          | d :: _ => if d == '.' || d == 'e' || d == 'E' then none else some (.num v, r)
          | [] => some (.num v, [])
        | none => none

/-- Members of a JSON object after the opening brace (first member not yet
consumed); duplicate keys overwrite, as `json.loads` assigns sequentially. -/
def parseObjItems : Nat → JDict → List Char → Option (JVal × List Char)
  | 0, _, _ => none
  | fuel + 1, acc, cs =>
    match cs with
    | '"' :: rest =>
      match parseStringBody rest.length rest with
      | some (kcs, r1) =>
        match skipWsJson r1 with
        | ':' :: r2 =>
          match parseVal fuel r2 with
          | some (v, r3) =>
            let acc2 := dSet acc (String.mk kcs) v
            match skipWsJson r3 with
            | ',' :: r4 => parseObjItems fuel acc2 (skipWsJson r4)
            | '\x7d' :: r4 => some (.obj acc2, r4)
            | _ => none
          | none => none
        | _ => none
      | none => none
    | _ => none

/-- Elements of a JSON array after the opening bracket (first element not
yet consumed). -/
def parseArrItems : Nat → List JVal → List Char → Option (JVal × List Char)
  | 0, _, _ => none
  | fuel + 1, acc, cs =>
    match parseVal fuel cs with
    | some (v, r) =>
      match skipWsJson r with
      | ',' :: r2 => parseArrItems fuel (acc ++ [v]) r2
      | ']' :: r2 => some (.arr (acc ++ [v]), r2)
      | _ => none
    | none => none

end

/-- The call `json.loads` on a whole string: one value, then only trailing
whitespace. -/
def parseJson (s : String) : Option JVal :=
  match parseVal (s.data.length + 1) s.data with
  | some (v, rest) => if (skipWsJson rest).isEmpty then some v else none
  | none => none

/-- The function `extract_clean_json` of utils.py lines 100-111: strip code fences, take
the greedy first-brace/last-brace span, return it only when it decodes as
JSON. -/
def extract_clean_json (response_text : String) : Option String :=
  match greedyBraceSpan (stripFences response_text).data with
  | none => none
  | some span =>
    if (parseJson (String.mk span)).isSome then some (String.mk span) else none

/-- Failure labels of the response-handling tail of
`run_analysis_and_summarize` (utils.py lines 218-241): `noJsonFound` is the
`"No valid JSON found in response"` return, `jsonParseError` the
`json.JSONDecodeError` handler, `nonObjectReply` the generic handler that
would catch `.items()` failing on a non-dict reply. -/
inductive AnalyzeError where
  | noJsonFound
  | jsonParseError
  | nonObjectReply
deriving DecidableEq

/-- The post-response portion of `run_analysis_and_summarize` (utils.py
lines 218-241): extract the JSON span, decode it, canonicalize keys and
backfill the schema.  The first component is the produced NotesDocument,
if any; the second the reported failure, if any. -/
def analyze_response (response_text : String) : Option JDict × Option AnalyzeError :=
  match extract_clean_json response_text with
  | none => (none, some .noJsonFound)
  | some js =>
    match parseJson js with
    | none => (none, some .jsonParseError)
    | some (.obj kvs) => (some (normalize_json kvs), none)
    | some _ => (none, some .nonObjectReply)

/-- Python runtime values for the render preprocessor: immutable scalars are
held inline, mutable dicts and lists are references into a heap. -/
inductive PVal where
  | vstr (s : String)
  | vint (n : Int)
  | vbool (b : Bool)
  | vnone
  | vref (a : Nat)
deriving Repr, DecidableEq

/-- Heap objects: Python dicts (ordered association lists) and lists. -/
inductive PObj where
  | pdict (kvs : List (String × PVal))
  | plist (xs : List PVal)
deriving Repr, DecidableEq

/-- The heap: object at address `a` is entry `a`; allocation appends. -/
abbrev Heap := List PObj

abbrev PDict := List (String × PVal)

/-- Python truthiness of a runtime value (a reference is truthy when the
object it denotes is non-empty; a dangling reference never occurs in
well-formed states and defaults to truthy). -/
def pTruthy (h : Heap) : PVal → Bool
  | .vstr s => s != ""
  | .vint n => n != 0
  | .vbool b => b
  | .vnone => false
  | .vref a =>
    match h[a]? with
    | some (.pdict kvs) => !kvs.isEmpty
    | some (.plist xs) => !xs.isEmpty
    | none => true

/-- The conversion `int(...)` on the integral values the preprocessor feeds it. -/
def pInt : PVal → Int
  | .vint n => n
  | .vbool true => 1
  | _ => 0

/-- Zero-padded two-digit field of an f-string `:02d` format. -/
def pad2 (n : Int) : String :=
  if 0 ≤ n ∧ n < 10 then "0" ++ toString n else toString n

/-- The function `format_timestamp` of utils.py lines 113-122: seconds to `MM:SS`, or
`HH:MM:SS` once at least one hour has elapsed. -/
def format_timestamp (seconds : Int) : String :=
  let hours := seconds.fdiv 3600
  let minutes := (seconds.fmod 3600).fdiv 60
  let secs := seconds.fmod 60
  if 0 < hours then pad2 hours ++ ":" ++ pad2 minutes ++ ":" ++ pad2 secs
  else pad2 minutes ++ ":" ++ pad2 secs

/-- The clickable timestamp anchor built by `process_item`
(utils.py lines 267-269). -/
def timestampHtml (baseUrl : String) (t : PVal) : String :=
  let linkUrl := baseUrl ++ "&t=" ++ toString (pInt t) ++ "s"
  "<a href=\"" ++ linkUrl ++ "\" class=\"timestamp-link\">[" ++
    format_timestamp (pInt t) ++ "]</a>"

/-- Substring search for `"<hl>"`-style markers: the shortest non-newline
inner span before a closing `"</hl>"`, mirroring the lazy group of
`re.sub(r'<hl>(.*?)</hl>', ..., s)`.  Returns the inner span and the
remainder after the closing tag. -/
def findClose : List Char → Option (List Char × List Char)
  | [] => none
  | c :: cs =>
    if leadsWith ("</hl>".data) (c :: cs) then some ([], (c :: cs).drop 5)
    else if c == '\n' then none
    else (findClose cs).map (fun p => (c :: p.1, p.2))

/-- One pass of `re.sub(r'<hl>(.*?)</hl>', repl, s)`: at each position try
the lazy match, substitute and resume after it, otherwise keep one
character.  The fuel is at least the list length; every recursive call
consumes at least one character. -/
def hlGo (repl : List Char → List Char) : Nat → List Char → List Char
  | 0, cs => cs
  | fuel + 1, cs =>
    match cs with
    | [] => []
    | c :: rest =>
      if leadsWith ("<hl>".data) cs then
        match findClose (cs.drop 4) with
        | some (inner, after) => repl inner ++ hlGo repl fuel after
        | none => c :: hlGo repl fuel rest
      else c :: hlGo repl fuel rest

/-- The highlight-tag rewrite of `process_item` (utils.py lines 275-286):
in easy-read mode each marked span becomes styled bold markup, otherwise
the marker tags are stripped. -/
def hlSub (isEasyRead : Bool) (s : String) : String :=
  let repl : List Char → List Char := fun inner =>
    if isEasyRead then
      ("<span class=\"highlight-text\"><b>".data) ++ inner ++ ("</b></span>".data)
    else inner
  String.mk (hlGo repl s.data.length s.data)

/-- Read the object at an address. -/
def hread (h : Heap) (a : Nat) : Option PObj := h[a]?

/-- Overwrite the object at an address (Python mutation of the object that
lives there). -/
def hwrite (h : Heap) (a : Nat) (o : PObj) : Heap := h.set a o

/-- Allocate a fresh object; its address is the old heap length. -/
def halloc (h : Heap) (o : PObj) : Heap × Nat := (h ++ [o], h.length)

/-- The Python assignment `d[k] = v` on the dict object at address `a`. -/
def hwriteKey (h : Heap) (a : Nat) (k : String) (v : PVal) : Heap :=
  match hread h a with
  | some (.pdict kvs) => hwrite h a (.pdict (dSet kvs k v))
  | _ => h

/-- One iteration of the highlight loop of `process_item` (utils.py lines
275-286) for a single key of the dict at address `a`: a string value is
rewritten in place through `hlSub`, anything else is left alone. -/
def hlFieldStep (isEasyRead : Bool) (a : Nat) (h : Heap) (k : String) : Heap :=
  match hread h a with
  | some (.pdict kvs) =>
    match dGet kvs k with
    | some (.vstr s) => hwrite h a (.pdict (dSet kvs k (.vstr (hlSub isEasyRead s))))
    | _ => h
  | _ => h

/-- The value assigned to `timestamp_html` by `process_item` (utils.py
lines 265-271): the anchor when `time` is truthy and a base URL is
available, the empty string otherwise (`if timestamp and base_url`). -/
def process_item_ts (baseUrl : Option String) (h : Heap) (kvs : PDict) : PVal :=
  let tsTruthy : Bool :=
    match dGet kvs "time" with
    | some t => pTruthy h t
    | none => false
  let buTruthy : Bool :=
    match baseUrl with
    | some u => u != ""
    | none => false
  if tsTruthy && buTruthy then
    match dGet kvs "time", baseUrl with
    | some t, some u => .vstr (timestampHtml u t)
    | _, _ => .vstr ""
  else .vstr ""

/-- The key list `new_item.keys()` iterated by the highlight loop: the keys
of the dict at address `a1`. -/
def process_item_ks (h2 : Heap) (a1 : Nat) : List String :=
  match hread h2 a1 with
  | some (.pdict kvs2) => kvs2.map (fun p => p.1)
  | _ => []

/-- The heap effect of `process_item` on a dict item whose contents are
`kvs`: allocate the shallow copy at address `h.length`, assign
`timestamp_html`, then run the highlight loop over the copy's keys. -/
def process_item_core (baseUrl : Option String) (isEasyRead : Bool)
    (h : Heap) (kvs : PDict) : Heap :=
  (process_item_ks
      (hwriteKey (h ++ [PObj.pdict kvs]) h.length "timestamp_html"
        (process_item_ts baseUrl h kvs)) h.length).foldl
    (hlFieldStep isEasyRead h.length)
    (hwriteKey (h ++ [PObj.pdict kvs]) h.length "timestamp_html"
      (process_item_ts baseUrl h kvs))

/-- The function `process_item` of utils.py lines 257-288: a non-dict item is returned
as is; a dict item is shallow-copied, given a `timestamp_html` field, and
every string-valued field of the copy is passed through the highlight
rewrite.  Only the fresh copy is ever written to. -/
def process_item (baseUrl : Option String) (isEasyRead : Bool)
    (h : Heap) (item : PVal) : Heap × PVal :=
  match item with
  | .vref a =>
    match hread h a with
    | some (.pdict kvs) => (process_item_core baseUrl isEasyRead h kvs, .vref h.length)
    | _ => (h, item)
  | _ => (h, item)

/-- Left-to-right processing of a Python list comprehension
`[f(x) for x in xs]`, threading the heap. -/
def processListH (f : Heap → PVal → Heap × PVal) (h : Heap) (xs : List PVal) :
    Heap × List PVal :=
  match xs with
  | [] => (h, [])
  | x :: rest =>
    let p := f h x
    let q := processListH f p.1 rest
    (q.1, p.2 :: q.2)

/-- The details-fixup of the `topic_breakdown` branch (utils.py lines
297-299), applied to the processed item living at address `a1`: when that
dict carries a list-valued `details` field, build a fresh list of processed
detail items, allocate it, and assign it to `details`. -/
def process_topic_core (baseUrl : Option String) (isEasyRead : Bool)
    (h1 : Heap) (a1 : Nat) : Heap :=
  match hread h1 a1 with
  | some (.pdict kvs) =>
    match dGet kvs "details" with
    | some (.vref ad) =>
      match hread h1 ad with
      | some (.plist ds) =>
        hwriteKey
          ((processListH (process_item baseUrl isEasyRead) h1 ds).1
            ++ [PObj.plist (processListH (process_item baseUrl isEasyRead) h1 ds).2])
          a1 "details"
          (.vref (processListH (process_item baseUrl isEasyRead) h1 ds).1.length)
      | _ => h1
    | _ => h1
  | _ => h1

/-- The `topic_breakdown` branch of `process_data_for_template` (utils.py
lines 295-300): process the item, then, when the processed copy carries a
list-valued `details` field, replace it with a freshly built list of
processed detail items. -/
def process_topic (baseUrl : Option String) (isEasyRead : Bool)
    (h : Heap) (item : PVal) : Heap × PVal :=
  match (process_item baseUrl isEasyRead h item).2 with
  | .vref a1 =>
    (process_topic_core baseUrl isEasyRead (process_item baseUrl isEasyRead h item).1 a1,
      .vref a1)
  | _ => process_item baseUrl isEasyRead h item

/-- One iteration of the section loop of `process_data_for_template`
(utils.py lines 291-304) for a single binding of the copied document dict
(living at address `aCopy`): a list-valued section is rebuilt as a fresh
list of processed items (`process_topic` for `topic_breakdown`,
`process_item` otherwise) and assigned into the copy. -/
def process_section (baseUrl : Option String) (isEasyRead : Bool) (aCopy : Nat)
    (hh : Heap) (kv : String × PVal) : Heap :=
  match kv.2 with
  | .vref av =>
    match hread hh av with
    | some (.plist xs) =>
      hwriteKey
        ((processListH (if kv.1 = "topic_breakdown"
            then process_topic baseUrl isEasyRead
            else process_item baseUrl isEasyRead) hh xs).1
          ++ [PObj.plist (processListH (if kv.1 = "topic_breakdown"
            then process_topic baseUrl isEasyRead
            else process_item baseUrl isEasyRead) hh xs).2])
        aCopy kv.1
        (.vref (processListH (if kv.1 = "topic_breakdown"
            then process_topic baseUrl isEasyRead
            else process_item baseUrl isEasyRead) hh xs).1.length)
    | _ => hh
  | _ => hh

/-- The function `process_data_for_template` of utils.py lines 251-306: shallow-copy the
document dict (the copy lives at the fresh address `h.length`), then run
the section loop over its bindings.  Returns the final heap and a reference
to the copy. -/
def process_data_for_template (h : Heap) (aData : Nat)
    (baseUrl : Option String) (isEasyRead : Bool) : Heap × PVal :=
  match hread h aData with
  | some (.pdict kvs) =>
    (kvs.foldl (process_section baseUrl isEasyRead h.length) (h ++ [PObj.pdict kvs]),
      .vref h.length)
  | _ => (h, .vref aData)

/-- The field `k` of the item produced by a preprocessor call, read back
from the final heap. -/
def itemFieldAfter (r : Heap × PVal) (k : String) : Option PVal :=
  match r.2 with
  | .vref a =>
    match hread r.1 a with
    | some (.pdict kvs) => dGet kvs k
    | _ => none
  | _ => none

/-- End-of-sentence punctuation of the segmenter per spec §4.1. -/
def isPunctChar (c : Char) : Bool :=
  c == '.' || c == '?' || c == '!' || c == ';'

/-- A sentence boundary per spec §4.1: end-of-sentence punctuation
immediately followed by whitespace. -/
def isBoundary (c : Char) (cs : List Char) : Bool :=
  isPunctChar c && (match cs with | d :: _ => isWsRegex d | [] => false)

/-- Splitter state machine per spec §4.1: a sentence boundary closes the
current fragment (punctuation included) and the whole whitespace run is
consumed (`skip` state) before the next fragment starts. -/
def splitSentGo (skip : Bool) (acc : List Char) : List Char → List (List Char)
  | [] => [acc.reverse]
  | c :: cs =>
    if skip && isWsRegex c then splitSentGo true acc cs
    else
      if isBoundary c cs then
        (c :: acc).reverse :: splitSentGo true [] cs
      else
        splitSentGo false (c :: acc) cs

/-- Strip leading and trailing whitespace from a fragment. -/
def trimChars (l : List Char) : List Char :=
  ((l.dropWhile isWsRegex).reverse.dropWhile isWsRegex).reverse

/-- Modelled from the spec: the sentence-split phase of
`segment_raw_transcript` (the function is imported by
`src/streamlit_app.py` line 6 but its definition is missing from `src/`).
Spec §4.1: split on end-of-sentence punctuation followed by whitespace and
discard empty fragments (with empty and whitespace-only input yielding no
sentences, per the fail-closed clause). -/
def splitSentences (raw : String) : List (List Char) :=
  ((splitSentGo false [] raw.data).map trimChars).filter (fun l => !l.isEmpty)

/-- Merge a list into consecutive chunks of `max 1 sz` elements (the last
chunk may be shorter).  The fuel is at least the list length; every step
consumes at least one element. -/
def chunkF : Nat → Nat → List (List Char) → List (List (List Char))
  | _, _, [] => []
  | 0, _, xs => [xs]
  | fuel + 1, sz, xs => xs.take (max 1 sz) :: chunkF fuel sz (xs.drop (max 1 sz))

/-- A transcript segment per spec §3: advisory time in seconds plus text. -/
structure TranscriptSegment where
  time : Nat
  text : String
deriving Repr, DecidableEq

/-- Join sentence fragments of a chunk with single spaces. -/
def joinSpace (chunk : List (List Char)) : String :=
  String.intercalate " " (chunk.map String.mk)

/-- Modelled from the spec: `segment_raw_transcript`, whose definition is
missing from `src/` (only the import in `src/streamlit_app.py` line 6
remains).  Spec §4.1: split into sentences, take a target chunk count of
`clamp(len(sentences)/10, 1, 50)`, a chunk size of
`max(1, len(sentences) / target)` with integer division, and emit each
chunk as one segment with `time = 0` and space-joined text. -/
def segment_raw_transcript (raw : String) : List TranscriptSegment :=
  (chunkF (splitSentences raw).length
      (max 1 ((splitSentences raw).length /
        min 50 (max 1 ((splitSentences raw).length / 10))))
      (splitSentences raw)).map
    (fun c => { time := 0, text := joinSpace c })

theorem dGet_dSet_self {α : Type} (d : List (String × α)) (k : String) (v : α) :
    dGet (dSet d k v) k = some v := by
  induction d with
  | nil => simp [dSet, dGet]
  | cons p rest ih =>
    by_cases hk : p.1 = k
    · simp [dSet, hk, dGet]
    · simp [dSet, hk, dGet, ih]

theorem dGet_dSet_ne {α : Type} (d : List (String × α)) {k' k : String} (v : α)
    (hk : k' ≠ k) : dGet (dSet d k' v) k = dGet d k := by
  induction d with
  | nil => simp [dSet, dGet, hk]
  | cons p rest ih =>
    obtain ⟨k1, v1⟩ := p
    by_cases hp : k1 = k'
    · subst hp
      simp [dSet, dGet, hk]
    · by_cases hpk : k1 = k
      · subst hpk
        simp [dSet, dGet, hp]
      · simp [dSet, hp, dGet, hpk, ih]

/-- Value of an expected key after one pass of the backfill loop, as a
function of its value before. -/
def afterVal (k : String) : Option JVal → JVal
  | none => zeroVal k
  | some v =>
    if k ≠ "main_subject" ∧ isList v = false then
      (if truthy v then .arr [v] else .arr [])
    else v

theorem dGet_backfillKey_self (d : JDict) (k : String) :
    dGet (backfillKey d k) k = some (afterVal k (dGet d k)) := by
  unfold backfillKey afterVal
  cases hv : dGet d k with
  | none => simp [dGet_dSet_self]
  | some v =>
    by_cases hc : k ≠ "main_subject" ∧ isList v = false
    · simp [hc, dGet_dSet_self]
    · simp [hc, hv]

theorem dGet_backfillKey_ne (d : JDict) {k' k : String} (hk : k' ≠ k) :
    dGet (backfillKey d k') k = dGet d k := by
  unfold backfillKey
  cases dGet d k' with
  | none => exact dGet_dSet_ne d _ hk
  | some v =>
    show dGet (if k' ≠ "main_subject" ∧ isList v = false
        then dSet d k' (if truthy v = true then JVal.arr [v] else JVal.arr [])
        else d) k = dGet d k
    by_cases hc : k' ≠ "main_subject" ∧ isList v = false
    · rw [if_pos hc]
      exact dGet_dSet_ne d _ hk
    · rw [if_neg hc]

theorem dGet_foldl_backfillKey_not_mem (ks : List String) (d : JDict)
    (k : String) (hk : k ∉ ks) :
    dGet (ks.foldl backfillKey d) k = dGet d k := by
  induction ks generalizing d with
  | nil => rfl
  | cons k' ks ih =>
    have hne : k' ≠ k := fun h => hk (h ▸ List.mem_cons_self k' ks)
    have hnk : k ∉ ks := fun h => hk (List.mem_cons_of_mem _ h)
    simp only [List.foldl_cons]
    rw [ih _ hnk, dGet_backfillKey_ne _ hne]

theorem dGet_foldl_backfillKey_mem (ks : List String) (d : JDict)
    (k : String) (hk : k ∈ ks) (hnd : ks.Nodup) :
    dGet (ks.foldl backfillKey d) k = some (afterVal k (dGet d k)) := by
  induction ks generalizing d with
  | nil => cases hk
  | cons k' ks ih =>
    simp only [List.foldl_cons]
    rcases List.mem_cons.mp hk with heq | hmem
    · have hnk : k ∉ ks := by rw [heq]; exact (List.nodup_cons.mp hnd).1
      rw [dGet_foldl_backfillKey_not_mem _ _ _ hnk, heq]
      exact dGet_backfillKey_self d k'
    · by_cases heq : k' = k
      · exact absurd (show k' ∈ ks by rw [heq]; exact hmem) (List.nodup_cons.mp hnd).1
      · rw [ih _ hmem (List.nodup_cons.mp hnd).2, dGet_backfillKey_ne _ heq]

theorem EXPECTED_KEYS_nodup : EXPECTED_KEYS.Nodup := by decide

theorem dGet_backfill (d : JDict) (k : String) (hk : k ∈ EXPECTED_KEYS) :
    dGet (backfill d) k = some (afterVal k (dGet d k)) :=
  dGet_foldl_backfillKey_mem _ d k hk EXPECTED_KEYS_nodup

theorem dGet_backfill_not_mem (d : JDict) (k : String) (hk : k ∉ EXPECTED_KEYS) :
    dGet (backfill d) k = dGet d k :=
  dGet_foldl_backfillKey_not_mem _ d k hk

/-- Claim C1: after the schema-backfill step of `run_analysis_and_summarize`,
for every input JSON object, every key of the fixed recognized-section
enumeration is present in the result; an absent key is inserted with its
zero value (`""` for `main_subject`, `[]` otherwise), and a present
non-`main_subject` value that is not a list is coerced: a truthy scalar is
wrapped in a singleton list, a falsy scalar is replaced by `[]`. -/
theorem backfill_schema (d : JDict) (k : String) (hk : k ∈ EXPECTED_KEYS) :
    (dGet (backfill d) k).isSome = true ∧
    (dGet d k = none → dGet (backfill d) k = some (zeroVal k)) ∧
    (∀ v, dGet d k = some v → k ≠ "main_subject" → isList v = false →
      dGet (backfill d) k = some (if truthy v then .arr [v] else .arr [])) := by
  refine ⟨?_, ?_, ?_⟩
  · rw [dGet_backfill d k hk]; rfl
  · intro h0
    rw [dGet_backfill d k hk, h0]
    rfl
  · intro v hv hms hl
    rw [dGet_backfill d k hk, hv]
    simp [afterVal, hms, hl]

/-- Witness for C1 at a concrete object: `"key_points"` is recognized, maps
to the scalar `3` in the input, and the backfill coerces it to `[3]`. -/
theorem backfill_schema_witness :
    dGet (backfill [("key_points", JVal.num 3)]) "key_points" =
      some (JVal.arr [JVal.num 3]) := by
  have h := (backfill_schema [("key_points", JVal.num 3)] "key_points"
    (by decide)).2.2 (JVal.num 3) (by rfl) (by decide) (by rfl)
  simpa using h

theorem backfillKey_id_of_arr (d : JDict) (k : String)
    (h : (k = "main_subject" ∧ (dGet d k).isSome = true) ∨ ∃ xs, dGet d k = some (.arr xs)) :
    backfillKey d k = d := by
  unfold backfillKey
  rcases h with ⟨hms, hs⟩ | ⟨xs, hx⟩
  · cases hv : dGet d k with
    | none => rw [hv] at hs; cases hs
    | some v => simp [hms]
  · rw [hx]
    simp [isList]

theorem foldl_backfillKey_id (ks : List String) (d : JDict)
    (h : ∀ k ∈ ks, backfillKey d k = d) : ks.foldl backfillKey d = d := by
  induction ks with
  | nil => rfl
  | cons k' ks ih =>
    simp only [List.foldl_cons]
    rw [h k' (List.mem_cons_self k' ks)]
    exact ih (fun k hk => h k (List.mem_cons_of_mem _ hk))

theorem afterVal_arr_of_ne (k : String) (hms : k ≠ "main_subject")
    (ov : Option JVal) : ∃ xs, afterVal k ov = .arr xs := by
  cases ov with
  | none => exact ⟨[], by simp [afterVal, zeroVal, hms]⟩
  | some v =>
    by_cases hl : isList v = false
    · by_cases ht : truthy v = true
      · exact ⟨[v], by simp [afterVal, hms, hl, ht]⟩
      · exact ⟨[], by simp [afterVal, hms, hl, ht]⟩
    · cases v with
      | arr xs => exact ⟨xs, by simp [afterVal, isList]⟩
      | str s => simp [isList] at hl
      | num n => simp [isList] at hl
      | bool b => simp [isList] at hl
      | null => simp [isList] at hl
      | obj kvs => simp [isList] at hl

/-- Claim C6: the schema-backfill step is idempotent: applying it twice to
any JSON object yields exactly the object obtained by applying it once. -/
theorem backfill_idempotent (d : JDict) : backfill (backfill d) = backfill d := by
  show EXPECTED_KEYS.foldl backfillKey (backfill d) = backfill d
  refine foldl_backfillKey_id _ _ (fun k hk => ?_)
  have hget := dGet_backfill d k hk
  refine backfillKey_id_of_arr _ _ ?_
  by_cases hms : k = "main_subject"
  · left
    exact ⟨hms, by rw [hget]; rfl⟩
  · right
    obtain ⟨xs, hxs⟩ := afterVal_arr_of_ne k hms (dGet d k)
    exact ⟨xs, by rw [hget, hxs]⟩

/-- A character of a key already in the lowercase-with-underscores target
form: lowercase ASCII letter, digit, or underscore. -/
def isSnakeChar (c : Char) : Bool := isLowerAscii c || isDigitAscii c || c == '_'

theorem not_upper_of_snake {c : Char} (h : isSnakeChar c = true) :
    isUpperAscii c = false := by
  rw [Bool.eq_false_iff]
  intro hu
  simp only [isSnakeChar, Bool.or_eq_true, beq_iff_eq] at h
  simp only [isUpperAscii, Bool.and_eq_true, decide_eq_true_eq] at hu
  rcases h with (hl | hd) | he
  · simp only [isLowerAscii, Bool.and_eq_true, decide_eq_true_eq] at hl
    omega
  · simp only [isDigitAscii, Bool.and_eq_true, decide_eq_true_eq] at hd
    omega
  · subst he
    have h95 : Char.toNat '_' = 95 := rfl
    omega

theorem sub1Go_id (cs : List Char) (h : ∀ c ∈ cs, isSnakeChar c = true) :
    sub1Go 0 cs = cs := by
  induction cs with
  | nil => rfl
  | cons c cs ih =>
    have htail : ∀ x ∈ cs, isSnakeChar x = true :=
      fun x hx => h x (List.mem_cons_of_mem _ hx)
    cases cs with
    | nil => rfl
    | cons u rest =>
      have hu : isUpperAscii u = false :=
        not_upper_of_snake (htail u (List.mem_cons_self u rest))
      have hstep : sub1Go 0 (c :: u :: rest) = c :: sub1Go 0 (u :: rest) := by
        simp [sub1Go, hu]
      rw [hstep, ih htail]

theorem sub2_id (cs : List Char) (h : ∀ c ∈ cs, isSnakeChar c = true) :
    sub2 cs = cs := by
  induction cs with
  | nil => rfl
  | cons c cs ih =>
    have htail : ∀ x ∈ cs, isSnakeChar x = true :=
      fun x hx => h x (List.mem_cons_of_mem _ hx)
    cases cs with
    | nil => rfl
    | cons u rest =>
      have hu : isUpperAscii u = false :=
        not_upper_of_snake (htail u (List.mem_cons_self u rest))
      have hstep : sub2 (c :: u :: rest) = c :: sub2 (u :: rest) := by
        simp [sub2, hu]
      rw [hstep, ih htail]

theorem map_asciiLower_id (cs : List Char) (h : ∀ c ∈ cs, isSnakeChar c = true) :
    cs.map asciiLower = cs := by
  induction cs with
  | nil => rfl
  | cons c cs ih =>
    have hc : isUpperAscii c = false := not_upper_of_snake (h c (List.mem_cons_self c cs))
    simp only [List.map_cons]
    rw [show asciiLower c = c by simp [asciiLower, hc],
      ih (fun x hx => h x (List.mem_cons_of_mem _ hx))]

theorem to_snake_case_id (s : String) (h : ∀ c ∈ s.data, isSnakeChar c = true) :
    to_snake_case s = s := by
  obtain ⟨cs⟩ := s
  show String.mk ((sub2 (sub1Go 0 cs)).map asciiLower) = String.mk cs
  rw [sub1Go_id cs h, sub2_id cs h, map_asciiLower_id cs h]

/-- Claim C5: the key canonicalization maps `"topicBreakdown"` to
`"topic_breakdown"` and `"KeyVocabulary"` to `"key_vocabulary"`, and leaves
any key already in lowercase-with-underscores form (lowercase letters,
digits, underscores) unchanged, via the two-rule
boundary-insertion-then-lowercase scheme embedded in `to_snake_case`. -/
theorem to_snake_case_spec :
    to_snake_case "topicBreakdown" = "topic_breakdown" ∧
    to_snake_case "KeyVocabulary" = "key_vocabulary" ∧
    ∀ s : String, (∀ c ∈ s.data, isSnakeChar c = true) → to_snake_case s = s :=
  ⟨by rfl, by rfl, fun s h => to_snake_case_id s h⟩

/-- Witness for C5: the already-canonical key `"key_points"` is left
unchanged. -/
theorem to_snake_case_spec_witness : to_snake_case "key_points" = "key_points" :=
  to_snake_case_spec.2.2 "key_points" (by decide)

/-- Claim C3 counterexample: the unrecognized key `"fooBar"` is present in
the input but absent from the normalized result (the normalizer renames it
to `"foo_bar"` before the backfill), so unrecognized keys are not passed
through unmodified. -/
theorem normalize_passthrough_counterexample :
    "fooBar" ∉ EXPECTED_KEYS ∧
    dGet [("fooBar", JVal.num 1)] "fooBar" = some (JVal.num 1) ∧
    dGet (normalize_json [("fooBar", JVal.num 1)]) "fooBar" = none :=
  ⟨by decide, by rfl, by rfl⟩

theorem dGet_snakeFold_not_mem (d : JDict) (acc : JDict) (sk : String)
    (hmem : sk ∉ d.map (fun p => to_snake_case p.1)) :
    dGet (d.foldl (fun acc p => dSet acc (to_snake_case p.1) p.2) acc) sk =
      dGet acc sk := by
  induction d generalizing acc with
  | nil => rfl
  | cons p d ih =>
    have hne : to_snake_case p.1 ≠ sk := by
      intro he
      exact hmem (by simp [he])
    simp only [List.foldl_cons]
    rw [ih _ (fun hm => hmem (List.mem_cons_of_mem _ hm)), dGet_dSet_ne _ _ hne]

theorem dGet_snakeFold (d : JDict) (acc : JDict)
    (hnd : (d.map (fun p => to_snake_case p.1)).Nodup)
    (k : String) (v : JVal) (hget : dGet d k = some v) :
    dGet (d.foldl (fun acc p => dSet acc (to_snake_case p.1) p.2) acc)
      (to_snake_case k) = some v := by
  induction d generalizing acc with
  | nil => cases hget
  | cons p d ih =>
    obtain ⟨k0, v0⟩ := p
    simp only [List.foldl_cons]
    by_cases hk : k0 = k
    · subst hk
      have hv : v0 = v := by
        simpa [dGet] using hget
      subst hv
      have hnm : to_snake_case k0 ∉ d.map (fun p => to_snake_case p.1) :=
        (List.nodup_cons.mp hnd).1
      rw [dGet_snakeFold_not_mem d _ _ hnm, dGet_dSet_self]
    · have hget' : dGet d k = some v := by
        simpa [dGet, hk] using hget
      exact ih _ (List.nodup_cons.mp hnd).2 hget'

/-- Claim C3 (amended): an unrecognized top-level key is passed through up
to key canonicalization: when the canonical forms of the object's keys are
pairwise distinct and the canonical form of the key is itself
unrecognized, the key's value appears unchanged in the normalized result
under the canonical (snake_case) form of the key. -/
theorem normalize_passthrough_canonical (d : JDict) (k : String) (v : JVal)
    (hget : dGet d k = some v)
    (hnd : (d.map (fun p => to_snake_case p.1)).Nodup)
    (hout : to_snake_case k ∉ EXPECTED_KEYS) :
    dGet (normalize_json d) (to_snake_case k) = some v := by
  show dGet (backfill (normalize_keys d)) (to_snake_case k) = some v
  rw [dGet_backfill_not_mem _ _ hout]
  exact dGet_snakeFold d [] hnd k v hget

/-- Witness for the amended C3 at a concrete object with the unrecognized,
already-canonical key `"extra_key"`. -/
theorem normalize_passthrough_canonical_witness :
    dGet (normalize_json [("extra_key", JVal.num 7)]) (to_snake_case "extra_key") =
      some (JVal.num 7) :=
  normalize_passthrough_canonical [("extra_key", JVal.num 7)] "extra_key"
    (JVal.num 7) (by rfl) (by decide) (by decide)

theorem extract_clean_json_isSome (s js : String)
    (h : extract_clean_json s = some js) : (parseJson js).isSome = true := by
  unfold extract_clean_json at h
  cases hspan : greedyBraceSpan (stripFences s).data with
  | none => simp [hspan] at h
  | some span =>
    simp only [hspan] at h
    by_cases hp : (parseJson (String.mk span)).isSome = true
    · rw [if_pos hp] at h
      cases h
      exact hp
    · rw [if_neg hp] at h
      cases h

/-- Claim C10: whenever `extract_clean_json` returns a string, that string
decodes as valid JSON, so the subsequent `json.loads` in
`run_analysis_and_summarize` never raises and its `JSONDecodeError`
handler is unreachable. -/
theorem extract_clean_json_valid (s : String) :
    (∀ js, extract_clean_json s = some js → (parseJson js).isSome = true) ∧
    (analyze_response s).2 ≠ some AnalyzeError.jsonParseError := by
  refine ⟨fun js hjs => extract_clean_json_isSome s js hjs, ?_⟩
  intro hbad
  cases hex : extract_clean_json s with
  | none => simp [analyze_response, hex] at hbad
  | some js =>
    have hsome := extract_clean_json_isSome s js hex
    cases hp : parseJson js with
    | none => rw [hp] at hsome; cases hsome
    | some v => cases v <;> simp [analyze_response, hex, hp] at hbad

/-- Witness for C10 at the concrete reply `"{}"`: the extracted span
decodes. -/
theorem extract_clean_json_valid_witness : (parseJson "\x7b\x7d").isSome = true :=
  (extract_clean_json_valid "\x7b\x7d").1 "\x7b\x7d" (by rfl)

/-- Claim C7: a reply in which no JSON object can be extracted (no
brace-delimited span that decodes, after code-fence stripping — i.e.
`extract_clean_json` yields nothing) makes the analysis return the
`"No valid JSON found in response"` report with no NotesDocument; the
embedding is total, so no unhandled exception occurs on this path. -/
theorem no_json_reported (reply : String)
    (h : extract_clean_json reply = none) :
    analyze_response reply = (none, some AnalyzeError.noJsonFound) := by
  unfold analyze_response
  rw [h]

/-- Witness for C7 at a concrete all-prose reply. -/
theorem no_json_reported_witness :
    analyze_response "The transcript discusses calculus, but I cannot help." =
      (none, some AnalyzeError.noJsonFound) :=
  no_json_reported _ (by rfl)

/-- Substring test: `pat` occurs somewhere in `cs`. -/
def containsSub (pat cs : List Char) : Bool :=
  match cs with
  | [] => leadsWith pat []
  | _ :: rest => leadsWith pat cs || containsSub pat rest

theorem hread_lt (h : Heap) {a : Nat} {o : PObj} (hr : hread h a = some o) :
    a < h.length :=
  (List.getElem?_eq_some.mp hr).1

theorem hread_halloc_self (h : Heap) (o : PObj) :
    hread (h ++ [o]) h.length = some o :=
  List.getElem?_concat_length h o

theorem hread_set_self (h : Heap) (a : Nat) (o : PObj) (ha : a < h.length) :
    hread (hwrite h a o) a = some o :=
  List.getElem?_set_eq_of_lt o ha

theorem hread_set_ne (h : Heap) {a b : Nat} (o : PObj) (hab : a ≠ b) :
    hread (hwrite h a o) b = hread h b :=
  List.getElem?_set_ne hab

theorem hwriteKey_read_self (h : Heap) (a : Nat) (kvs : PDict) (k : String)
    (v : PVal) (hr : hread h a = some (.pdict kvs)) :
    hread (hwriteKey h a k v) a = some (.pdict (dSet kvs k v)) := by
  unfold hwriteKey
  rw [hr]
  exact hread_set_self h a _ (hread_lt h hr)

theorem hlSub_empty (isEasyRead : Bool) : hlSub isEasyRead "" = "" := rfl

theorem hlFieldStep_eq (isEasyRead : Bool) (a1 : Nat) (hh : Heap)
    (k : String) (kvs : PDict) (hr : hread hh a1 = some (.pdict kvs)) :
    hlFieldStep isEasyRead a1 hh k =
      match dGet kvs k with
      | some (.vstr s) => hwrite hh a1 (.pdict (dSet kvs k (.vstr (hlSub isEasyRead s))))
      | _ => hh := by
  unfold hlFieldStep
  rw [hr]

theorem hlFieldStep_keeps (isEasyRead : Bool) (a1 : Nat) (hh : Heap)
    (k : String) (kvs : PDict)
    (hr : hread hh a1 = some (.pdict kvs))
    (hts : dGet kvs "timestamp_html" = some (.vstr "")) :
    ∃ kvs', hread (hlFieldStep isEasyRead a1 hh k) a1 = some (.pdict kvs') ∧
      dGet kvs' "timestamp_html" = some (.vstr "") := by
  rw [hlFieldStep_eq isEasyRead a1 hh k kvs hr]
  cases hv : dGet kvs k with
  | none => exact ⟨kvs, hr, hts⟩
  | some v =>
    cases v with
    | vstr s =>
      refine ⟨dSet kvs k (.vstr (hlSub isEasyRead s)),
        hread_set_self hh a1 _ (hread_lt hh hr), ?_⟩
      by_cases hk : k = "timestamp_html"
      · subst hk
        have hs : s = "" := by
          rw [hv] at hts
          cases hts
          rfl
        subst hs
        rw [hlSub_empty]
        exact dGet_dSet_self kvs "timestamp_html" (.vstr "")
      · rw [dGet_dSet_ne kvs _ hk]
        exact hts
    | vint n => exact ⟨kvs, hr, hts⟩
    | vbool b => exact ⟨kvs, hr, hts⟩
    | vnone => exact ⟨kvs, hr, hts⟩
    | vref a => exact ⟨kvs, hr, hts⟩

theorem hlFold_keeps (isEasyRead : Bool) (a1 : Nat) (ks : List String) (hh : Heap)
    (kvs : PDict) (hr : hread hh a1 = some (.pdict kvs))
    (hts : dGet kvs "timestamp_html" = some (.vstr "")) :
    ∃ kvs', hread (ks.foldl (hlFieldStep isEasyRead a1) hh) a1 = some (.pdict kvs') ∧
      dGet kvs' "timestamp_html" = some (.vstr "") := by
  induction ks generalizing hh kvs with
  | nil => exact ⟨kvs, hr, hts⟩
  | cons k ks ih =>
    obtain ⟨kvs1, hr1, hts1⟩ := hlFieldStep_keeps isEasyRead a1 hh k kvs hr hts
    exact ih _ _ hr1 hts1

theorem itemFieldAfter_eq (hh : Heap) (a : Nat) (k : String) (kvs : PDict)
    (hr : hread hh a = some (.pdict kvs)) :
    itemFieldAfter (hh, .vref a) k = dGet kvs k := by
  show (match hread hh a with
    | some (PObj.pdict kvs) => dGet kvs k
    | _ => none) = dGet kvs k
  rw [hr]

theorem process_item_of_dict (baseUrl : Option String) (isEasyRead : Bool)
    (h : Heap) (a : Nat) (kvs : PDict) (hobj : hread h a = some (.pdict kvs)) :
    process_item baseUrl isEasyRead h (.vref a) =
      (process_item_core baseUrl isEasyRead h kvs, .vref h.length) := by
  simp only [process_item, hobj]

theorem process_item_ts_zero (baseUrl : Option String) (h : Heap) (kvs : PDict)
    (htime : dGet kvs "time" = some (.vint 0)) :
    process_item_ts baseUrl h kvs = .vstr "" := by
  unfold process_item_ts
  rw [htime]
  simp [pTruthy]

/-- Claim C2 (amended): for every item whose `time` field is exactly zero,
even when a video reference is available, `process_item` sets the
`timestamp_html` presentation field to the empty string — no link is
attached. -/
theorem zero_time_empty_link (h : Heap) (a : Nat) (kvs : PDict)
    (baseUrl : Option String) (isEasyRead : Bool)
    (hobj : hread h a = some (.pdict kvs))
    (htime : dGet kvs "time" = some (.vint 0)) :
    itemFieldAfter (process_item baseUrl isEasyRead h (.vref a)) "timestamp_html" =
      some (.vstr "") := by
  rw [process_item_of_dict baseUrl isEasyRead h a kvs hobj]
  unfold process_item_core
  rw [process_item_ts_zero baseUrl h kvs htime]
  have hr1 : hread (hwriteKey (h ++ [PObj.pdict kvs]) h.length "timestamp_html"
      (.vstr "")) h.length =
      some (.pdict (dSet kvs "timestamp_html" (.vstr ""))) :=
    hwriteKey_read_self _ _ kvs _ _ (hread_halloc_self h (.pdict kvs))
  obtain ⟨kvs', hr', hts'⟩ := hlFold_keeps isEasyRead h.length
    (process_item_ks
      (hwriteKey (h ++ [PObj.pdict kvs]) h.length "timestamp_html" (.vstr ""))
      h.length) _ _ hr1
    (dGet_dSet_self kvs "timestamp_html" (.vstr ""))
  rw [itemFieldAfter_eq _ _ _ _ hr']
  exact hts'

/-- Witness for the amended C2 at a concrete heap:
one item with `time = 0` and a video reference. -/
theorem zero_time_empty_link_witness :
    itemFieldAfter
      (process_item (some "https://www.youtube.com/watch?v=abc") true
        [PObj.pdict [("time", PVal.vint 0), ("detail", PVal.vstr "x")]] (PVal.vref 0))
      "timestamp_html" = some (PVal.vstr "") :=
  zero_time_empty_link [PObj.pdict [("time", PVal.vint 0), ("detail", PVal.vstr "x")]]
    0 [("time", PVal.vint 0), ("detail", PVal.vstr "x")]
    (some "https://www.youtube.com/watch?v=abc") true (by rfl) (by rfl)

/-- Claim C2 counterexample: at an item with `time = 0` and a video
reference available, the attached presentation field is the empty string,
which does not mention the video reference at all — it is not a link to the
unqualified video reference. -/
theorem zero_time_counterexample :
    itemFieldAfter
      (process_item (some "https://www.youtube.com/watch?v=abc") false
        [PObj.pdict [("time", PVal.vint 0), ("detail", PVal.vstr "x")]] (PVal.vref 0))
      "timestamp_html" = some (PVal.vstr "") ∧
    containsSub ("watch?v=abc".data) ("".data) = false ∧
    containsSub ("<a ".data) ("".data) = false :=
  ⟨by rfl, by rfl, by rfl⟩

/-- Claim C8: the highlight transform maps
`"The <hl>mitochondria</hl> is key"` under easy-read mode to the inner text
wrapped in bold/highlight markup with the marker tags removed, and under
non-easy-read mode to `"The mitochondria is key"`; accordingly a processed
item carrying that string in a field comes back with exactly those
renderings. -/
theorem highlight_transform_spec :
    hlSub true "The <hl>mitochondria</hl> is key" =
      "The <span class=\"highlight-text\"><b>mitochondria</b></span> is key" ∧
    hlSub false "The <hl>mitochondria</hl> is key" = "The mitochondria is key" ∧
    itemFieldAfter
      (process_item none true
        [PObj.pdict [("detail", PVal.vstr "The <hl>mitochondria</hl> is key")]]
        (PVal.vref 0)) "detail" =
      some (PVal.vstr "The <span class=\"highlight-text\"><b>mitochondria</b></span> is key") ∧
    itemFieldAfter
      (process_item none false
        [PObj.pdict [("detail", PVal.vstr "The <hl>mitochondria</hl> is key")]]
        (PVal.vref 0)) "detail" =
      some (PVal.vstr "The mitochondria is key") :=
  ⟨by rfl, by rfl, by rfl, by rfl⟩

/-- Heap preservation: every object of `h` is unchanged in `h'` (the heap
only grows; old addresses keep their objects). -/
def heapKept (h h' : Heap) : Prop :=
  h.length ≤ h'.length ∧ ∀ a, a < h.length → h'[a]? = h[a]?

theorem heapKept_refl (h : Heap) : heapKept h h :=
  ⟨le_refl _, fun _ _ => rfl⟩

theorem heapKept_trans {h1 h2 h3 : Heap} (h12 : heapKept h1 h2)
    (h23 : heapKept h2 h3) : heapKept h1 h3 :=
  ⟨le_trans h12.1 h23.1,
    fun a ha => by rw [h23.2 a (lt_of_lt_of_le ha h12.1), h12.2 a ha]⟩

theorem heapKept_append (h : Heap) (o : PObj) : heapKept h (h ++ [o]) :=
  ⟨by simp, fun a ha => by rw [List.getElem?_append, if_pos ha]⟩

theorem heapKept_write {h h' : Heap} (hk : heapKept h h') {a : Nat}
    (ha : h.length ≤ a) (o : PObj) : heapKept h (hwrite h' a o) := by
  refine ⟨by simpa [hwrite] using hk.1, fun i hi => ?_⟩
  have hne : a ≠ i := by omega
  rw [show hwrite h' a o = h'.set a o from rfl, List.getElem?_set_ne hne]
  exact hk.2 i hi

theorem heapKept_hwriteKey {h h' : Heap} (hk : heapKept h h') {a : Nat}
    (ha : h.length ≤ a) (k : String) (v : PVal) :
    heapKept h (hwriteKey h' a k v) := by
  unfold hwriteKey
  split
  · exact heapKept_write hk ha _
  · exact hk

theorem heapKept_hlFieldStep {h hh : Heap} (hk : heapKept h hh) {a1 : Nat}
    (ha : h.length ≤ a1) (isEasyRead : Bool) (k : String) :
    heapKept h (hlFieldStep isEasyRead a1 hh k) := by
  unfold hlFieldStep
  split
  · split
    · exact heapKept_write hk ha _
    · exact hk
  · exact hk

theorem heapKept_hlFold {h : Heap} (isEasyRead : Bool) (a1 : Nat)
    (ha : h.length ≤ a1) (ks : List String) {hh : Heap} (hk : heapKept h hh) :
    heapKept h (ks.foldl (hlFieldStep isEasyRead a1) hh) := by
  induction ks generalizing hh with
  | nil => exact hk
  | cons k ks ih => exact ih (heapKept_hlFieldStep hk ha isEasyRead k)

theorem heapKept_process_item_core (baseUrl : Option String) (isEasyRead : Bool)
    (h : Heap) (kvs : PDict) : heapKept h (process_item_core baseUrl isEasyRead h kvs) := by
  unfold process_item_core
  exact heapKept_hlFold isEasyRead h.length (le_refl _) _
    (heapKept_hwriteKey (heapKept_append h _) (le_refl _) _ _)

theorem heapKept_process_item (baseUrl : Option String) (isEasyRead : Bool)
    (h : Heap) (item : PVal) : heapKept h (process_item baseUrl isEasyRead h item).1 := by
  cases item with
  | vref a =>
    cases hr : hread h a with
    | none =>
      have heq : process_item baseUrl isEasyRead h (.vref a) = (h, .vref a) := by
        simp only [process_item, hr]
      rw [heq]
      exact heapKept_refl h
    | some o =>
      cases o with
      | pdict kvs =>
        rw [process_item_of_dict baseUrl isEasyRead h a kvs hr]
        exact heapKept_process_item_core baseUrl isEasyRead h kvs
      | plist xs =>
        have heq : process_item baseUrl isEasyRead h (.vref a) = (h, .vref a) := by
          simp only [process_item, hr]
        rw [heq]
        exact heapKept_refl h
  | vstr s => exact heapKept_refl h
  | vint n => exact heapKept_refl h
  | vbool b => exact heapKept_refl h
  | vnone => exact heapKept_refl h

theorem heapKept_processListH (f : Heap → PVal → Heap × PVal)
    (hf : ∀ hh x, heapKept hh (f hh x).1) (h : Heap) (xs : List PVal) :
    heapKept h (processListH f h xs).1 := by
  induction xs generalizing h with
  | nil => exact heapKept_refl h
  | cons x rest ih =>
    show heapKept h (processListH f (f h x).1 rest).1
    exact heapKept_trans (hf h x) (ih (f h x).1)

theorem process_item_out (baseUrl : Option String) (isEasyRead : Bool)
    (h : Heap) (item : PVal) :
    (process_item baseUrl isEasyRead h item = (h, item) ∧
      ∀ a kvs, item = .vref a → hread h a ≠ some (.pdict kvs)) ∨
    (process_item baseUrl isEasyRead h item).2 = .vref h.length := by
  cases item with
  | vref a =>
    cases hr : hread h a with
    | none =>
      left
      refine ⟨by simp only [process_item, hr], ?_⟩
      intro a' kvs heq
      cases heq
      rw [hr]
      intro hcon
      cases hcon
    | some o =>
      cases o with
      | pdict kvs =>
        right
        rw [process_item_of_dict baseUrl isEasyRead h a kvs hr]
      | plist xs =>
        left
        refine ⟨by simp only [process_item, hr], ?_⟩
        intro a' kvs heq
        cases heq
        rw [hr]
        intro hcon
        cases hcon
  | vstr s => exact Or.inl ⟨rfl, fun a kvs heq => by cases heq⟩
  | vint n => exact Or.inl ⟨rfl, fun a kvs heq => by cases heq⟩
  | vbool b => exact Or.inl ⟨rfl, fun a kvs heq => by cases heq⟩
  | vnone => exact Or.inl ⟨rfl, fun a kvs heq => by cases heq⟩

theorem process_topic_core_id (baseUrl : Option String) (isEasyRead : Bool)
    (h1 : Heap) (a1 : Nat)
    (hnd : ∀ kvs, hread h1 a1 ≠ some (.pdict kvs)) :
    process_topic_core baseUrl isEasyRead h1 a1 = h1 := by
  unfold process_topic_core
  cases hr : hread h1 a1 with
  | none => rfl
  | some o =>
    cases o with
    | pdict kvs => exact absurd hr (hnd kvs)
    | plist xs => rfl

theorem heapKept_process_topic_core {h : Heap} (baseUrl : Option String)
    (isEasyRead : Bool) {h1 : Heap} (hk : heapKept h h1) {a1 : Nat}
    (ha : h.length ≤ a1) :
    heapKept h (process_topic_core baseUrl isEasyRead h1 a1) := by
  unfold process_topic_core
  split
  · split
    · split
      · exact heapKept_hwriteKey
          (heapKept_trans
            (heapKept_trans hk (heapKept_processListH _
              (fun hh x => heapKept_process_item baseUrl isEasyRead hh x) h1 _))
            (heapKept_append _ _)) ha _ _
      · exact hk
    · exact hk
  · exact hk

theorem heapKept_process_topic (baseUrl : Option String) (isEasyRead : Bool)
    (h : Heap) (item : PVal) : heapKept h (process_topic baseUrl isEasyRead h item).1 := by
  rcases process_item_out baseUrl isEasyRead h item with ⟨heq, hnd⟩ | href
  · unfold process_topic
    rw [heq]
    cases item with
    | vref a =>
      show heapKept h (process_topic_core baseUrl isEasyRead h a)
      rw [process_topic_core_id baseUrl isEasyRead h a (fun kvs => hnd a kvs rfl)]
      exact heapKept_refl h
    | vstr s => exact heapKept_refl h
    | vint n => exact heapKept_refl h
    | vbool b => exact heapKept_refl h
    | vnone => exact heapKept_refl h
  · unfold process_topic
    rw [href]
    exact heapKept_process_topic_core baseUrl isEasyRead
      (heapKept_process_item baseUrl isEasyRead h item) (le_refl _)

theorem heapKept_process_section {h : Heap} (baseUrl : Option String)
    (isEasyRead : Bool) {aCopy : Nat} (ha : h.length ≤ aCopy)
    {hh : Heap} (hk : heapKept h hh) (kv : String × PVal) :
    heapKept h (process_section baseUrl isEasyRead aCopy hh kv) := by
  have hf : ∀ hh2 x, heapKept hh2
      ((if kv.1 = "topic_breakdown"
        then process_topic baseUrl isEasyRead
        else process_item baseUrl isEasyRead) hh2 x).1 := by
    intro hh2 x
    by_cases hkb : kv.1 = "topic_breakdown"
    · rw [if_pos hkb]
      exact heapKept_process_topic baseUrl isEasyRead hh2 x
    · rw [if_neg hkb]
      exact heapKept_process_item baseUrl isEasyRead hh2 x
  unfold process_section
  split
  · split
    · exact heapKept_hwriteKey
        (heapKept_trans
          (heapKept_trans hk (heapKept_processListH _ hf hh _))
          (heapKept_append _ _)) ha _ _
    · exact hk
  · exact hk

theorem heapKept_sections (baseUrl : Option String) (isEasyRead : Bool)
    {h : Heap} {aCopy : Nat} (ha : h.length ≤ aCopy)
    (kvs : List (String × PVal)) {hh : Heap} (hk : heapKept h hh) :
    heapKept h (kvs.foldl (process_section baseUrl isEasyRead aCopy) hh) := by
  induction kvs generalizing hh with
  | nil => exact hk
  | cons kv kvs ih => exact ih (heapKept_process_section baseUrl isEasyRead ha hk kv)

/-- Claim C4: `process_data_for_template` never mutates the input document:
for every heap, document address, optional video reference and easy-read
flag, every object present before the call (the input mapping, its lists,
and the items inside them, nested `details` included) is unchanged in the
final heap — the result is a structural copy built at fresh addresses. -/
theorem process_data_no_mutation (h : Heap) (aData : Nat)
    (baseUrl : Option String) (isEasyRead : Bool) (a : Nat) (ha : a < h.length) :
    ((process_data_for_template h aData baseUrl isEasyRead).1)[a]? = h[a]? := by
  cases hr : hread h aData with
  | none =>
    have heq : process_data_for_template h aData baseUrl isEasyRead = (h, .vref aData) := by
      simp only [process_data_for_template, hr]
    rw [heq]
  | some o =>
    cases o with
    | plist xs =>
      have heq : process_data_for_template h aData baseUrl isEasyRead = (h, .vref aData) := by
        simp only [process_data_for_template, hr]
      rw [heq]
    | pdict kvs =>
      have heq : process_data_for_template h aData baseUrl isEasyRead =
          (kvs.foldl (process_section baseUrl isEasyRead h.length)
            (h ++ [PObj.pdict kvs]), .vref h.length) := by
        simp only [process_data_for_template, hr]
      rw [heq]
      exact (heapKept_sections baseUrl isEasyRead (le_refl h.length) kvs
        (heapKept_append h _)).2 a ha

/-- Witness for C4 at a concrete document heap carrying a
`topic_breakdown` section with nested details: the innermost item object
(address 4) is unchanged by the call. -/
theorem process_data_no_mutation_witness :
    ((process_data_for_template
      [ PObj.pdict [("main_subject", PVal.vstr "Bio"), ("topic_breakdown", PVal.vref 1)],
        PObj.plist [PVal.vref 2],
        PObj.pdict [("time", PVal.vint 5), ("detail", PVal.vstr "a <hl>b</hl>"),
          ("details", PVal.vref 3)],
        PObj.plist [PVal.vref 4],
        PObj.pdict [("point", PVal.vstr "x")] ]
      0 (some "https://www.youtube.com/watch?v=abc") true).1)[4]? =
    (some (PObj.pdict [("point", PVal.vstr "x")]) : Option PObj) := by
  have h4 := process_data_no_mutation
    [ PObj.pdict [("main_subject", PVal.vstr "Bio"), ("topic_breakdown", PVal.vref 1)],
      PObj.plist [PVal.vref 2],
      PObj.pdict [("time", PVal.vint 5), ("detail", PVal.vstr "a <hl>b</hl>"),
        ("details", PVal.vref 3)],
      PObj.plist [PVal.vref 4],
      PObj.pdict [("point", PVal.vstr "x")] ]
    0 (some "https://www.youtube.com/watch?v=abc") true 4 (by decide)
  rw [h4]
  rfl

theorem punct_not_ws {c : Char} (h : isPunctChar c = true) : isWsRegex c = false := by
  simp only [isPunctChar, Bool.or_eq_true, beq_iff_eq] at h
  rcases h with ((rfl | rfl) | rfl) | rfl <;> rfl

theorem mem_dropWhile_of_neg {p : Char → Bool} {c : Char} :
    ∀ (l : List Char), c ∈ l → p c = false → c ∈ l.dropWhile p := by
  intro l
  induction l with
  | nil => intro h _; cases h
  | cons x xs ih =>
    intro hc hp
    rw [List.dropWhile_cons]
    by_cases hx : p x = true
    · rw [if_pos hx]
      rcases List.mem_cons.mp hc with rfl | hc'
      · rw [hp] at hx; cases hx
      · exact ih hc' hp
    · rw [if_neg hx]
      exact hc

theorem mem_trimChars {c : Char} {l : List Char} (hc : c ∈ l)
    (hw : isWsRegex c = false) : c ∈ trimChars l := by
  unfold trimChars
  exact List.mem_reverse.mpr (mem_dropWhile_of_neg _
    (List.mem_reverse.mpr (mem_dropWhile_of_neg l hc hw)) hw)

theorem splitSentGo_cover : ∀ (cs : List Char) (skip : Bool) (acc : List Char),
    ((∃ c ∈ cs, isWsRegex c = false) ∨ (∃ c ∈ acc, isWsRegex c = false)) →
    ∃ l ∈ splitSentGo skip acc cs, ∃ c ∈ l, isWsRegex c = false := by
  intro cs
  induction cs with
  | nil =>
    intro skip acc h
    rcases h with ⟨c, hc, _⟩ | ⟨c, hc, hw⟩
    · cases hc
    · exact ⟨acc.reverse, List.mem_cons_self _ _, c, List.mem_reverse.mpr hc, hw⟩
  | cons c0 cs ih =>
    intro skip acc h
    show ∃ l ∈ (if skip && isWsRegex c0 then splitSentGo true acc cs
      else if isBoundary c0 cs
        then (c0 :: acc).reverse :: splitSentGo true [] cs
        else splitSentGo false (c0 :: acc) cs),
      ∃ c ∈ l, isWsRegex c = false
    by_cases hskip : (skip && isWsRegex c0) = true
    · rw [if_pos hskip]
      apply ih true acc
      rcases h with ⟨c, hc, hw⟩ | ⟨c, hc, hw⟩
      · rcases List.mem_cons.mp hc with rfl | hc'
        · have hand := hskip
          rw [Bool.and_eq_true] at hand
          rw [hw] at hand
          cases hand.2
        · exact Or.inl ⟨c, hc', hw⟩
      · exact Or.inr ⟨c, hc, hw⟩
    · rw [if_neg hskip]
      by_cases hb : isBoundary c0 cs = true
      · rw [if_pos hb]
        have hpunct : isPunctChar c0 = true := by
          have hand := hb
          unfold isBoundary at hand
          rw [Bool.and_eq_true] at hand
          exact hand.1
        exact ⟨(c0 :: acc).reverse, List.mem_cons_self _ _, c0,
          List.mem_reverse.mpr (List.mem_cons_self c0 acc),
          punct_not_ws hpunct⟩
      · rw [if_neg hb]
        apply ih false (c0 :: acc)
        rcases h with ⟨c, hc, hw⟩ | ⟨c, hc, hw⟩
        · rcases List.mem_cons.mp hc with rfl | hc'
          · exact Or.inr ⟨c, List.mem_cons_self _ _, hw⟩
          · exact Or.inl ⟨c, hc', hw⟩
        · exact Or.inr ⟨c, List.mem_cons_of_mem _ hc, hw⟩

theorem splitSentences_ne_nil {raw : String}
    (h : ∃ c ∈ raw.data, isWsRegex c = false) : splitSentences raw ≠ [] := by
  obtain ⟨c, hc, hw⟩ := h
  obtain ⟨l, hl, c', hc', hw'⟩ :=
    splitSentGo_cover raw.data false [] (Or.inl ⟨c, hc, hw⟩)
  unfold splitSentences
  apply List.ne_nil_of_mem (a := trimChars l)
  apply List.mem_filter.mpr
  refine ⟨List.mem_map_of_mem _ hl, ?_⟩
  have hmem : c' ∈ trimChars l := mem_trimChars hc' hw'
  cases htl : trimChars l with
  | nil => rw [htl] at hmem; cases hmem
  | cons a as => simp

theorem chunkF_ne_nil (fuel sz : Nat) (xs : List (List Char)) (hx : xs ≠ []) :
    chunkF fuel sz xs ≠ [] := by
  cases xs with
  | nil => exact absurd rfl hx
  | cons x rest =>
    cases fuel with
    | zero => simp [chunkF]
    | succ fuel => simp [chunkF]

theorem chunkF_length_le (fuel : Nat) : ∀ (K sz : Nat) (xs : List (List Char)),
    xs.length ≤ fuel → xs.length ≤ K * max 1 sz → (chunkF fuel sz xs).length ≤ K := by
  induction fuel with
  | zero =>
    intro K sz xs hf _
    have hnil : xs = [] := List.eq_nil_of_length_eq_zero (Nat.le_zero.mp hf)
    subst hnil
    simp [chunkF]
  | succ fuel ih =>
    intro K sz xs hf hK
    cases xs with
    | nil => simp [chunkF]
    | cons x rest =>
      have hm : 1 ≤ max 1 sz := le_max_left 1 sz
      cases K with
      | zero => simp at hK
      | succ K =>
        show ((x :: rest).take (max 1 sz) ::
          chunkF fuel sz ((x :: rest).drop (max 1 sz))).length ≤ K + 1
        rw [List.length_cons]
        have hlen : ((x :: rest).drop (max 1 sz)).length ≤ fuel := by
          rw [List.length_drop]
          omega
        have hKm : ((x :: rest).drop (max 1 sz)).length ≤ K * max 1 sz := by
          rw [List.length_drop]
          apply Nat.sub_le_iff_le_add.mpr
          calc (x :: rest).length ≤ (K + 1) * max 1 sz := hK
            _ = K * max 1 sz + max 1 sz := by ring
        exact Nat.succ_le_succ (ih K sz _ hlen hKm)

theorem segment_arith (n : Nat) :
    n ≤ 55 * max 1 (n / min 50 (max 1 (n / 10))) := by
  by_cases h10 : n < 10
  · have h0 : n / 10 = 0 := Nat.div_eq_of_lt h10
    rw [h0]
    norm_num
    rcases Nat.le_total 1 n with h1 | h1
    · rw [max_eq_right h1]
      exact Nat.le_mul_of_pos_left n (by norm_num)
    · rw [max_eq_left h1]
      omega
  · push_neg at h10
    have hge1 : 1 ≤ n / 10 := (Nat.le_div_iff_mul_le (by norm_num)).mpr (by omega)
    rw [max_eq_right hge1]
    set t := min 50 (n / 10) with ht
    have ht1 : 1 ≤ t := le_min (by norm_num) hge1
    have ht50 : t ≤ 50 := min_le_left _ _
    have htdiv : t ≤ n / 10 := min_le_right _ _
    have h10t : 10 * t ≤ n := by
      calc 10 * t ≤ 10 * (n / 10) := Nat.mul_le_mul_left 10 htdiv
        _ ≤ n := by rw [Nat.mul_comm]; exact Nat.div_mul_le_self n 10
    set q := n / t with hq
    have hq10 : 10 ≤ q := (Nat.le_div_iff_mul_le (by omega)).mpr (by omega)
    rw [max_eq_right (by omega : 1 ≤ q)]
    have hmod := Nat.div_add_mod n t
    have hr : n % t < t := Nat.mod_lt n (by omega)
    have h1 : t * q ≤ 50 * q := Nat.mul_le_mul_right q ht50
    have h2 : 50 ≤ 5 * q := by
      calc (50 : Nat) = 5 * 10 := by norm_num
        _ ≤ 5 * q := Nat.mul_le_mul_left 5 hq10
    have hr50 : n % t ≤ 50 := le_of_lt (lt_of_lt_of_le hr ht50)
    calc n = t * q + n % t := by rw [← hq] at hmod; exact hmod.symm
      _ ≤ 50 * q + n % t := Nat.add_le_add_right h1 _
      _ ≤ 50 * q + 50 := Nat.add_le_add_left hr50 _
      _ ≤ 50 * q + 5 * q := Nat.add_le_add_left h2 _
      _ = 55 * q := by ring

set_option maxRecDepth 40000 in
/-- Claim C9 counterexample: the claim fails on both counts for the
spec-modelled segmenter.  The whitespace-only input `"   "` has positive
length yet yields no segments (the spec's fail-closed clause), and an input
of 501 one-word sentences yields 51 chunks, exceeding 50 (target count 50,
chunk size `501 / 50 = 10`, and `ceil(501/10) = 51`). -/
theorem segment_counterexample :
    (("   ").length > 0 ∧ segment_raw_transcript "   " = []) ∧
    ((String.mk ((List.replicate 501 ['a', '.', ' ']).flatten)).length > 0 ∧
      (segment_raw_transcript
        (String.mk ((List.replicate 501 ['a', '.', ' ']).flatten))).length = 51) :=
  ⟨⟨by decide, by rfl⟩, ⟨by decide, by rfl⟩⟩

/-- Claim C9 (amended): for every raw input containing at least one
non-whitespace character, the spec-modelled `segment()` returns a non-empty
sequence of transcript segments, and the number of chunks it produces never
exceeds 55. -/
theorem segment_bounds (raw : String) :
    ((∃ c ∈ raw.data, isWsRegex c = false) → segment_raw_transcript raw ≠ []) ∧
    (segment_raw_transcript raw).length ≤ 55 := by
  constructor
  · intro h hmap
    unfold segment_raw_transcript at hmap
    rw [List.map_eq_nil_iff] at hmap
    exact chunkF_ne_nil _ _ _ (splitSentences_ne_nil h) hmap
  · unfold segment_raw_transcript
    rw [List.length_map]
    apply chunkF_length_le _ 55 _ _ (le_refl _)
    rw [max_eq_right (le_max_left 1 _)]
    exact segment_arith _

/-- Witness for the amended C9 at the concrete input `"Hello there."`. -/
theorem segment_bounds_witness :
    segment_raw_transcript "Hello there." ≠ [] ∧
    (segment_raw_transcript "Hello there.").length ≤ 55 :=
  ⟨(segment_bounds "Hello there.").1 (by decide), (segment_bounds "Hello there.").2⟩
